import Mathlib

/-!
Verification of the day-21 keypad-conundrum solver (`src/21/src/main.rs`).

The Rust program is embedded shallowly:

* `Point` (a Rust `Point(usize, usize)` tuple struct) becomes `Nat × Nat`;
  field `.0` is `.1` here and field `.1` is `.2`.
* `Keypad` keeps its `keys` map as an association list (the Rust `HashMap`
  is only ever used through lookups, so lookup-equivalent association
  lists are a faithful model) together with the `forbidden` point.
* The breadth-first search inside `Keypad::get_paths` is a loop on a
  `VecDeque`; it is embedded as a recursion on the queue with an explicit
  fuel argument.  Exhausted fuel yields `none`, never a truncated result,
  and `get_paths` hands the search enough fuel for the grids in use, so a
  `some` answer is exactly the list the Rust loop produces in order.
* `find_shortest_len` recurses with `depth + 1` and `panic`s (unwrap /
  map-index) on malformed input; it is embedded with an explicit fuel for
  the call stack and an `Option` result, threading the mutable
  `HashMap<(usize, String), usize>` cache as an explicit association list.
* `usize` arithmetic never overflows at the observed scale (sums stay far
  below 2 ^ 64), so plain `Nat` is used.
-/

abbrev Point : Type := Nat × Nat

structure Keypad where
  keys : List (Char × Point)
  forbidden : Point

def Keypad.numeric : Keypad :=
  { keys := [('7', (0, 0)), ('8', (0, 1)), ('9', (0, 2)),
             ('4', (1, 0)), ('5', (1, 1)), ('6', (1, 2)),
             ('1', (2, 0)), ('2', (2, 1)), ('3', (2, 2)),
             ('0', (3, 1)), ('A', (3, 2))],
    forbidden := (3, 0) }

def Keypad.directional : Keypad :=
  { keys := [('^', (0, 1)), ('A', (0, 2)),
             ('<', (1, 0)), ('v', (1, 1)), ('>', (1, 2))],
    forbidden := (0, 0) }

/-- Manhattan distance between two points (with truncated `Nat` subtraction
covering both orientations). -/
def mdist (p q : Point) : Nat :=
  (p.1 - q.1) + (q.1 - p.1) + (p.2 - q.2) + (q.2 - p.2)

/-- The queue successors of one BFS expansion step in `Keypad::get_paths`:
the four `if` blocks (left, up, right, down) of the Rust loop body, in
source order.  `p` is the popped point, `path` the popped path. -/
def succs (forbidden target p : Point) (path : List Char) : List (Point × List Char) :=
  (if target.2 < p.2 ∧ ¬(forbidden.1 = p.1 ∧ forbidden.2 < p.2 ∧ target.2 ≤ forbidden.2)
   then [((p.1, target.2), path ++ List.replicate (p.2 - target.2) '<')] else []) ++
  (if target.1 < p.1 ∧ ¬(forbidden.2 = p.2 ∧ forbidden.1 < p.1 ∧ target.1 ≤ forbidden.1)
   then [((target.1, p.2), path ++ List.replicate (p.1 - target.1) '^')] else []) ++
  (if p.2 < target.2 ∧ ¬(forbidden.1 = p.1 ∧ p.2 < forbidden.2 ∧ forbidden.2 ≤ target.2)
   then [((p.1, target.2), path ++ List.replicate (target.2 - p.2) '>')] else []) ++
  (if p.1 < target.1 ∧ ¬(forbidden.2 = p.2 ∧ p.1 < forbidden.1 ∧ forbidden.1 ≤ target.1)
   then [((target.1, p.2), path ++ List.replicate (target.1 - p.1) 'v')] else [])

/-- The `while let Some(..) = q.pop_front()` loop of `Keypad::get_paths`.
Fuel bounds the number of loop iterations; running out returns `none`. -/
def bfs (forbidden target : Point) :
    Nat → List (Point × List Char) → List (List Char) → Option (List (List Char))
  | _, [], res => some res
  | 0, _ :: _, _ => none
  | fuel + 1, (p, path) :: q, res =>
    if p = target then bfs forbidden target fuel q (res ++ [path ++ ['A']])
    else bfs forbidden target fuel (q ++ succs forbidden target p path) res

/-- `Keypad::get_paths`: all minimal move sequences from `first` to `second`.
The Rust indexing `self.keys[&first]` panics on an absent symbol, modelled by
`none`.  Each loop iteration strictly decreases the measure
`sum of 3 ^ (distance to target)` over the queue, so `3 ^ mdist s t + 1`
iterations always suffice; `none` from exhausted fuel cannot occur for the
keypads in use (and would be loudly visible, never a truncated result). -/
def Keypad.get_paths (pad : Keypad) (first second : Char) : Option (List (List Char)) := do
  let s ← pad.keys.lookup first
  let t ← pad.keys.lookup second
  bfs pad.forbidden t (3 ^ mdist s t + 1) [(s, [])] []

/-- The evaluator's memoization cache,
Rust's `HashMap<(usize, String), usize>` as an association list. -/
abbrev Cache : Type := List ((Nat × List Char) × Nat)

def lookupC : Cache → Nat → List Char → Option Nat
  | [], _, _ => none
  | ((d, s), v) :: rest, depth, pin =>
    if d = depth then (if s = pin then some v else lookupC rest depth pin)
    else lookupC rest depth pin

def insertC (cache : Cache) (depth : Nat) (pin : List Char) (v : Nat) : Cache :=
  ((depth, pin), v) :: cache

/-- `iter::once('A').chain(pin.chars()).tuple_windows()`: the consecutive
pairs of `'A' :: pin`. -/
def pairs (pin : List Char) : List (Char × Char) :=
  ('A' :: pin).zip pin

/-- Running minimum used by the iterator `min()`:
`none` means no element seen yet. -/
def minOpt (best : Option Nat) (v : Nat) : Nat :=
  match best with
  | none => v
  | some m => min m v

/-- `paths.iter().map(String::len).min()`:
minimum path length, `none` on an empty list. -/
def minLenAux : List (List Char) → Option Nat → Option Nat
  | [], best => best
  | p :: rest, best => minLenAux rest (some (minOpt best p.length))

def minLen (paths : List (List Char)) : Option Nat :=
  minLenAux paths none

/-- The inner `paths.into_iter().map(|path| find_shortest_len(..)).min()`:
`F` is the recursive call at `depth + 1`; the cache is threaded left to
right exactly as the iterator drains.  `min().unwrap()` on an empty
iterator panics, modelled by `none` when no path was seen. -/
def goPaths (F : List Char → Cache → Option (Nat × Cache)) :
    List (List Char) → Option Nat → Cache → Option (Nat × Cache)
  | [], none, _ => none
  | [], some m, cache => some (m, cache)
  | p :: rest, best, cache =>
    match F p cache with
    | none => none
    | some (v, cache') => goPaths F rest (some (minOpt best v)) cache'

/-- The `.map(|(a, b)| ..).sum()` over the symbol pairs in
`find_shortest_len`, accumulating the sum left to right. -/
def goPairs (pad : Keypad) (atMax : Bool)
    (F : List Char → Cache → Option (Nat × Cache)) :
    List (Char × Char) → Nat → Cache → Option (Nat × Cache)
  | [], acc, cache => some (acc, cache)
  | (a, b) :: rest, acc, cache =>
    match pad.get_paths a b with
    | none => none
    | some paths =>
      if atMax then
        match minLen paths with
        | none => none
        | some m => goPairs pad atMax F rest (acc + m) cache
      else
        match goPaths F paths none cache with
        | none => none
        | some (m, cache') => goPairs pad atMax F rest (acc + m) cache'

/-- `find_shortest_len`: minimal outermost action count for producing `pin`
at `depth`, memoized in `cache`.  `fuel` bounds the recursion depth of the
Rust call stack (each recursive call is at `depth + 1`, so
`max_depth + 1 - depth` levels always suffice; see the termination
theorem). -/
def find_shortest_len (fuel : Nat) (n_pad d_pad : Keypad) (pin : List Char)
    (depth max_depth : Nat) (cache : Cache) : Option (Nat × Cache) :=
  match fuel with
  | 0 => none
  | f + 1 =>
    match lookupC cache depth pin with
    | some v => some (v, cache)
    | none =>
      let pad := if depth = 0 then n_pad else d_pad
      match goPairs pad (depth == max_depth)
          (fun p c => find_shortest_len f n_pad d_pad p (depth + 1) max_depth c)
          (pairs pin) 0 cache with
      | none => none
      | some (len, cache') => some (len, insertC cache' depth pin len)

/-- `pin[0..pin.len() - 1].parse::<usize>()`:
the numeric value of the code, digits only, empty rejected. -/
def parseDigit (c : Char) : Option Nat :=
  if '0' ≤ c ∧ c ≤ '9' then some (c.toNat - '0'.toNat) else none

def parseNatAux : List Char → Nat → Option Nat
  | [], acc => some acc
  | c :: rest, acc =>
    match parseDigit c with
    | none => none
    | some d => parseNatAux rest (acc * 10 + d)

def parseNat : List Char → Option Nat
  | [] => none
  | c :: rest => parseNatAux (c :: rest) 0

/-- The `input.iter().map(|pin| ..).sum()` of `solver`, threading the one
shared cache across the codes in order. -/
def solveGo (n_pad d_pad : Keypad) (max_depth : Nat) :
    List (List Char) → Cache → Option Nat
  | [], _ => some 0
  | pin :: rest, cache =>
    match find_shortest_len (max_depth + 1) n_pad d_pad pin 0 max_depth cache with
    | none => none
    | some (len, cache') =>
      match parseNat pin.dropLast with
      | none => none
      | some v =>
        match solveGo n_pad d_pad max_depth rest cache' with
        | none => none
        | some s => some (len * v + s)

/-- `solver`: sum of complexities of the given codes
(`read_data` is out of scope; the codes are passed directly). -/
def solver (codes : List (List Char)) (part2 : Bool) : Option Nat :=
  let max_depth := if part2 then 25 else 2
  solveGo Keypad.numeric Keypad.directional max_depth codes []

/-- The five-code reference input `input.test`. -/
def testCodes : List (List Char) :=
  [['0', '2', '9', 'A'], ['9', '8', '0', 'A'], ['1', '7', '9', 'A'],
   ['4', '5', '6', 'A'], ['3', '7', '9', 'A']]

/-- The symbols present on a keypad, in layout order. -/
def Keypad.syms (pad : Keypad) : List Char :=
  pad.keys.map Prod.fst

/-- Position of a symbol on a keypad (only meaningful for present symbols). -/
def keyPos (pad : Keypad) (c : Char) : Point :=
  (pad.keys.lookup c).getD (0, 0)

/-- One step of walking a returned move sequence on the grid
(`'A'` presses the key under the arm and does not move). -/
def stepMove (p : Point) (c : Char) : Point :=
  if c = '<' then (p.1, p.2 - 1)
  else if c = '^' then (p.1 - 1, p.2)
  else if c = '>' then (p.1, p.2 + 1)
  else if c = 'v' then (p.1 + 1, p.2)
  else p

/-- All cells visited when walking a move sequence from `p`,
the start and final cells included. -/
def visited (p : Point) : List Char → List Point
  | [] => [p]
  | c :: rest => p :: visited (stepMove p c) rest

/-!
Cache-free reference semantics of the evaluator, used to reason about the
memoized `find_shortest_len`: `specCost d_pad k pad pin` is the minimal
action count for producing `pin` on `pad` when `k` further indirection
layers remain (`k = max_depth - depth`).  `specPaths` and `specPairs`
mirror `goPaths` and `goPairs` without the cache.
-/

def specPaths (S : List Char → Option Nat) :
    List (List Char) → Option Nat → Option Nat
  | [], best => best
  | p :: rest, best =>
    match S p with
    | none => none
    | some v => specPaths S rest (some (minOpt best v))

/-- Reference cost of a single two-symbol transition: the minimum, over
the enumerated paths, of the path length (`atMax`) or of `S` applied to
the path (one more indirection layer). -/
def pairCost (pad : Keypad) (atMax : Bool) (S : List Char → Option Nat)
    (a b : Char) : Option Nat :=
  match pad.get_paths a b with
  | none => none
  | some paths => if atMax then minLen paths else specPaths S paths none

def specPairs (pad : Keypad) (atMax : Bool) (S : List Char → Option Nat) :
    List (Char × Char) → Nat → Option Nat
  | [], acc => some acc
  | (a, b) :: rest, acc =>
    match pairCost pad atMax S a b with
    | none => none
    | some m => specPairs pad atMax S rest (acc + m)

def specCost (d_pad : Keypad) : Nat → Keypad → List Char → Option Nat
  | 0, pad, pin => specPairs pad true (fun _ => none) (pairs pin) 0
  | k + 1, pad, pin => specPairs pad false (specCost d_pad k d_pad) (pairs pin) 0

/-- All symbols of a sequence lie on the given keypad. -/
@[reducible] def GoodPin (pad : Keypad) (pin : List Char) : Prop :=
  ∀ c ∈ pin, c ∈ pad.syms

/-- Every depth-0 key of the cache is a sequence over the numeric alphabet:
the invariant maintained by `solver`, which evaluates only whole codes at
depth 0 while all recursive evaluation happens at positive depth. -/
def CleanCache0 (cache : Cache) : Prop :=
  ∀ s v, lookupC cache 0 s = some v → ∀ c ∈ s, c ∈ Keypad.numeric.syms

/-- Every entry of the cache records the reference cost of its key:
depth within range and value equal to `specCost` at the key's depth. -/
def CacheValid (n_pad d_pad : Keypad) (max_depth : Nat) (cache : Cache) : Prop :=
  ∀ dep s v, lookupC cache dep s = some v →
    dep ≤ max_depth ∧
    specCost d_pad (max_depth - dep) (if dep = 0 then n_pad else d_pad) s = some v

/-- A memoized outcome refines a reference outcome: failures agree, and a
successful value agrees while the returned cache stays valid. -/
def RelOut (n_pad d_pad : Keypad) (max_depth : Nat)
    (r : Option (Nat × Cache)) (o : Option Nat) : Prop :=
  match o with
  | none => r = none
  | some v => ∃ c', r = some (v, c') ∧ CacheValid n_pad d_pad max_depth c'

/-!
### Ground facts about the two concrete keypads, settled by computation
-/

/-- Every symbol of the numeric keypad can be looked up. -/
theorem lookup_isSome_numeric :
    ∀ c ∈ Keypad.numeric.syms, (Keypad.numeric.keys.lookup c).isSome = true := by
  decide

/-- Every symbol of the directional keypad can be looked up. -/
theorem lookup_isSome_directional :
    ∀ c ∈ Keypad.directional.syms, (Keypad.directional.keys.lookup c).isSome = true := by
  decide

/-- On the numeric keypad, every pair of present symbols yields a defined,
non-empty path list whose paths are non-empty sequences over the
directional alphabet. -/
theorem paths_ground_numeric :
    ∀ a ∈ Keypad.numeric.syms, ∀ b ∈ Keypad.numeric.syms,
      (Keypad.numeric.get_paths a b).isSome = true ∧
      (Keypad.numeric.get_paths a b).getD [] ≠ [] ∧
      ∀ p ∈ (Keypad.numeric.get_paths a b).getD [],
        p ≠ [] ∧ ∀ c ∈ p, c ∈ Keypad.directional.syms := by
  decide

/-- On the directional keypad, every pair of present symbols yields a
defined, non-empty path list whose paths are non-empty sequences over the
directional alphabet. -/
theorem paths_ground_directional :
    ∀ a ∈ Keypad.directional.syms, ∀ b ∈ Keypad.directional.syms,
      (Keypad.directional.get_paths a b).isSome = true ∧
      (Keypad.directional.get_paths a b).getD [] ≠ [] ∧
      ∀ p ∈ (Keypad.directional.get_paths a b).getD [],
        p ≠ [] ∧ ∀ c ∈ p, c ∈ Keypad.directional.syms := by
  decide

/-- C2: for both keypads and every pair of present symbols, every move
sequence returned by `get_paths` has length equal to the Manhattan distance
between the two symbols' positions plus one for the terminal activate
action (hence all returned sequences have equal length). -/
theorem get_paths_minimal_length :
    (∀ a ∈ Keypad.numeric.syms, ∀ b ∈ Keypad.numeric.syms,
      ∀ p ∈ (Keypad.numeric.get_paths a b).getD [],
        p.length = mdist (keyPos Keypad.numeric a) (keyPos Keypad.numeric b) + 1) ∧
    (∀ a ∈ Keypad.directional.syms, ∀ b ∈ Keypad.directional.syms,
      ∀ p ∈ (Keypad.directional.get_paths a b).getD [],
        p.length = mdist (keyPos Keypad.directional a) (keyPos Keypad.directional b) + 1) := by
  decide

/-- C3: for both keypads and every pair of present symbols, walking any
returned move sequence from the start symbol's position never visits the
keypad's forbidden cell, at no intermediate nor the final step. -/
theorem get_paths_avoids_forbidden :
    (∀ a ∈ Keypad.numeric.syms, ∀ b ∈ Keypad.numeric.syms,
      ∀ p ∈ (Keypad.numeric.get_paths a b).getD [],
        Keypad.numeric.forbidden ∉ visited (keyPos Keypad.numeric a) p) ∧
    (∀ a ∈ Keypad.directional.syms, ∀ b ∈ Keypad.directional.syms,
      ∀ p ∈ (Keypad.directional.get_paths a b).getD [],
        Keypad.directional.forbidden ∉ visited (keyPos Keypad.directional a) p) := by
  decide

/-- C10: for both keypads and every ordered pair of present symbols,
`get_paths` succeeds with at least one move sequence, so the minimum taken
over candidate paths inside `find_shortest_len` is over a non-empty
collection (`minLen` is defined, and so is the recursive minimum). -/
theorem get_paths_nonempty :
    (∀ a ∈ Keypad.numeric.syms, ∀ b ∈ Keypad.numeric.syms,
      (Keypad.numeric.get_paths a b).isSome = true ∧
      (Keypad.numeric.get_paths a b).getD [] ≠ [] ∧
      (minLen ((Keypad.numeric.get_paths a b).getD [])).isSome = true) ∧
    (∀ a ∈ Keypad.directional.syms, ∀ b ∈ Keypad.directional.syms,
      (Keypad.directional.get_paths a b).isSome = true ∧
      (Keypad.directional.get_paths a b).getD [] ≠ [] ∧
      (minLen ((Keypad.directional.get_paths a b).getD [])).isSome = true) := by
  decide


/-!
### Association-list and pair-window utilities
-/

theorem lookup_eq_none_of_not_mem {l : List (Char × Point)} {c : Char}
    (h : c ∉ l.map Prod.fst) : l.lookup c = none := by
  induction l with
  | nil => rfl
  | cons kv rest ih =>
    obtain ⟨k, v⟩ := kv
    simp only [List.map_cons, List.mem_cons, not_or] at h
    rw [List.lookup_cons]
    have hbeq : (c == k) = false := beq_eq_false_iff_ne.mpr h.1
    rw [hbeq]
    exact ih h.2

theorem mem_pairs {pin : List Char} {a b : Char} (h : (a, b) ∈ pairs pin) :
    (a = 'A' ∨ a ∈ pin) ∧ b ∈ pin := by
  rcases List.of_mem_zip h with ⟨ha, hb⟩
  exact ⟨List.mem_cons.mp ha, hb⟩

theorem exists_mem_zip :
    ∀ (l₂ l₁ : List Char), l₂.length ≤ l₁.length → ∀ c ∈ l₂, ∃ a, (a, c) ∈ l₁.zip l₂ := by
  intro l₂
  induction l₂ with
  | nil => intro l₁ _ c hc; exact absurd hc (List.not_mem_nil c)
  | cons x rest ih =>
    intro l₁ hlen c hc
    cases l₁ with
    | nil => simp at hlen
    | cons y l₁' =>
      rcases List.mem_cons.mp hc with rfl | hc'
      · exact ⟨y, by simp⟩
      · obtain ⟨a, ha⟩ := ih l₁' (by simpa using hlen) c hc'
        exact ⟨a, by simp [ha]⟩

theorem mem_pairs_of_mem {pin : List Char} {c : Char} (h : c ∈ pin) :
    ∃ a, (a, c) ∈ pairs pin :=
  exists_mem_zip pin ('A' :: pin) (by simp) c h

theorem pairs_length (pin : List Char) : (pairs pin).length = pin.length := by
  simp [pairs]

theorem lookupC_insertC (cache : Cache) (dp : Nat) (pn : List Char) (v : Nat)
    (dep : Nat) (s : List Char) :
    lookupC (insertC cache dp pn v) dep s =
      if dp = dep ∧ pn = s then some v else lookupC cache dep s := by
  simp only [insertC, lookupC]
  by_cases h1 : dp = dep <;> by_cases h2 : pn = s <;> simp [h1, h2]

theorem minLenAux_eq_specPaths (ps : List (List Char)) :
    ∀ best, minLenAux ps best = specPaths (fun p => some p.length) ps best := by
  induction ps with
  | nil => intro best; rfl
  | cons p rest ih => intro best; simp [minLenAux, specPaths, ih]

/-!
### Memoization correctness: `find_shortest_len` computes `specCost`
-/

theorem relOut_none {n_pad d_pad : Keypad} {maxd : Nat} {r : Option (Nat × Cache)} :
    RelOut n_pad d_pad maxd r none ↔ r = none :=
  Iff.rfl

theorem relOut_some {n_pad d_pad : Keypad} {maxd : Nat} {r : Option (Nat × Cache)} {v : Nat} :
    RelOut n_pad d_pad maxd r (some v) ↔
      ∃ c', r = some (v, c') ∧ CacheValid n_pad d_pad maxd c' :=
  Iff.rfl

theorem cacheValid_nil {n_pad d_pad : Keypad} {maxd : Nat} :
    CacheValid n_pad d_pad maxd [] := by
  intro dep s v h
  simp [lookupC] at h

theorem cacheValid_insert {n_pad d_pad : Keypad} {maxd : Nat} {cache : Cache}
    (hc : CacheValid n_pad d_pad maxd cache) {dp : Nat} {pn : List Char} {v : Nat}
    (hdp : dp ≤ maxd)
    (hv : specCost d_pad (maxd - dp) (if dp = 0 then n_pad else d_pad) pn = some v) :
    CacheValid n_pad d_pad maxd (insertC cache dp pn v) := by
  intro dep s w hw
  rw [lookupC_insertC] at hw
  split at hw
  · rename_i hkey
    obtain ⟨rfl, rfl⟩ := hkey
    cases hw
    exact ⟨hdp, hv⟩
  · exact hc dep s w hw

theorem goPaths_rel {n_pad d_pad : Keypad} {maxd : Nat}
    {F : List Char → Cache → Option (Nat × Cache)} {S : List Char → Option Nat}
    (hFS : ∀ p c, CacheValid n_pad d_pad maxd c → RelOut n_pad d_pad maxd (F p c) (S p)) :
    ∀ (ps : List (List Char)) (best : Option Nat) (cache : Cache),
      CacheValid n_pad d_pad maxd cache →
      RelOut n_pad d_pad maxd (goPaths F ps best cache) (specPaths S ps best) := by
  intro ps
  induction ps with
  | nil =>
    intro best cache hc
    cases best with
    | none => exact relOut_none.mpr rfl
    | some m => exact relOut_some.mpr ⟨cache, rfl, hc⟩
  | cons p rest ih =>
    intro best cache hc
    have h := hFS p cache hc
    cases hSp : S p with
    | none =>
      rw [hSp] at h
      have hF : F p cache = none := relOut_none.mp h
      simp only [goPaths, specPaths, hSp, hF]
      exact relOut_none.mpr rfl
    | some v =>
      rw [hSp] at h
      obtain ⟨c', hF, hc'⟩ := relOut_some.mp h
      simp only [goPaths, specPaths, hSp, hF]
      exact ih (some (minOpt best v)) c' hc'

theorem goPairs_max_rel {n_pad d_pad : Keypad} {maxd : Nat} {pad : Keypad}
    {F : List Char → Cache → Option (Nat × Cache)} {S : List Char → Option Nat} :
    ∀ (prs : List (Char × Char)) (acc : Nat) (cache : Cache),
      CacheValid n_pad d_pad maxd cache →
      RelOut n_pad d_pad maxd (goPairs pad true F prs acc cache)
        (specPairs pad true S prs acc) := by
  intro prs
  induction prs with
  | nil => intro acc cache hc; exact relOut_some.mpr ⟨cache, rfl, hc⟩
  | cons ab rest ih =>
    intro acc cache hc
    obtain ⟨a, b⟩ := ab
    simp only [goPairs, specPairs, pairCost]
    cases hp : pad.get_paths a b with
    | none => exact relOut_none.mpr rfl
    | some paths =>
      simp only [if_pos rfl]
      cases hm : minLen paths with
      | none => exact relOut_none.mpr rfl
      | some m => exact ih (acc + m) cache hc

theorem goPairs_rel {n_pad d_pad : Keypad} {maxd : Nat} {pad : Keypad}
    {F : List Char → Cache → Option (Nat × Cache)} {S : List Char → Option Nat}
    (hFS : ∀ p c, CacheValid n_pad d_pad maxd c → RelOut n_pad d_pad maxd (F p c) (S p)) :
    ∀ (prs : List (Char × Char)) (acc : Nat) (cache : Cache),
      CacheValid n_pad d_pad maxd cache →
      RelOut n_pad d_pad maxd (goPairs pad false F prs acc cache)
        (specPairs pad false S prs acc) := by
  intro prs
  induction prs with
  | nil => intro acc cache hc; exact relOut_some.mpr ⟨cache, rfl, hc⟩
  | cons ab rest ih =>
    intro acc cache hc
    obtain ⟨a, b⟩ := ab
    simp only [goPairs, specPairs, pairCost]
    cases hp : pad.get_paths a b with
    | none => exact relOut_none.mpr rfl
    | some paths =>
      simp only [Bool.false_eq_true, if_neg, if_false]
      have h := goPaths_rel hFS paths none cache hc
      cases hs : specPaths S paths none with
      | none =>
        rw [hs] at h
        have : goPaths F paths none cache = none := relOut_none.mp h
        simp only [this]
        exact relOut_none.mpr rfl
      | some m =>
        rw [hs] at h
        obtain ⟨c', hgo, hc'⟩ := relOut_some.mp h
        simp only [hgo]
        exact ih (acc + m) c' hc'

theorem find_rel :
    ∀ (fuel : Nat) (n_pad d_pad : Keypad) (pin : List Char) (depth maxd : Nat) (cache : Cache),
      depth ≤ maxd → maxd + 1 - depth ≤ fuel → CacheValid n_pad d_pad maxd cache →
      RelOut n_pad d_pad maxd (find_shortest_len fuel n_pad d_pad pin depth maxd cache)
        (specCost d_pad (maxd - depth) (if depth = 0 then n_pad else d_pad) pin) := by
  intro fuel
  induction fuel with
  | zero => intro n_pad d_pad pin depth maxd cache h1 h2 _; omega
  | succ f ih =>
    intro n_pad d_pad pin depth maxd cache h1 h2 hc
    cases hl : lookupC cache depth pin with
    | some v =>
      obtain ⟨hdep, hval⟩ := hc depth pin v hl
      rw [hval]
      refine relOut_some.mpr ⟨cache, ?_, hc⟩
      simp [find_shortest_len, hl]
    | none =>
      have hbody :
          find_shortest_len (f + 1) n_pad d_pad pin depth maxd cache =
            match goPairs (if depth = 0 then n_pad else d_pad) (depth == maxd)
                (fun p c => find_shortest_len f n_pad d_pad p (depth + 1) maxd c)
                (pairs pin) 0 cache with
            | none => none
            | some (len, cache') => some (len, insertC cache' depth pin len) := by
        simp [find_shortest_len, hl]
      by_cases hdm : depth = maxd
      · subst hdm
        have hk : depth - depth = 0 := by omega
        rw [hk]
        have hb : (depth == depth) = true := by simp
        rw [hb] at hbody
        have hrel := @goPairs_max_rel n_pad d_pad depth
          (if depth = 0 then n_pad else d_pad)
          (fun p c => find_shortest_len f n_pad d_pad p (depth + 1) depth c)
          (fun _ => none) (pairs pin) 0 cache hc
        show RelOut n_pad d_pad depth _
          (specCost d_pad 0 (if depth = 0 then n_pad else d_pad) pin)
        simp only [specCost]
        cases hs : specPairs (if depth = 0 then n_pad else d_pad) true
            (fun _ => none) (pairs pin) 0 with
        | none =>
          rw [hs] at hrel
          have hgo := relOut_none.mp hrel
          rw [relOut_none, hbody, hgo]
        | some len =>
          rw [hs] at hrel
          obtain ⟨c', hgo, hc'⟩ := relOut_some.mp hrel
          refine relOut_some.mpr ⟨insertC c' depth pin len, ?_, ?_⟩
          · rw [hbody, hgo]
          · refine cacheValid_insert hc' (le_refl depth) ?_
            rw [hk]
            simp only [specCost]
            exact hs
      · have hdlt : depth < maxd := lt_of_le_of_ne h1 hdm
        obtain ⟨k, hk⟩ : ∃ k, maxd - depth = k + 1 := ⟨maxd - depth - 1, by omega⟩
        rw [hk]
        have hb : (depth == maxd) = false := by simp [hdm]
        rw [hb] at hbody
        have hFS : ∀ p c, CacheValid n_pad d_pad maxd c →
            RelOut n_pad d_pad maxd (find_shortest_len f n_pad d_pad p (depth + 1) maxd c)
              (specCost d_pad k d_pad p) := by
          intro p c hcv
          have := ih n_pad d_pad p (depth + 1) maxd c (by omega) (by omega) hcv
          have hpad : (if depth + 1 = 0 then n_pad else d_pad) = d_pad := by simp
          have hkk : maxd - (depth + 1) = k := by omega
          rw [hpad, hkk] at this
          exact this
        have hrel := @goPairs_rel n_pad d_pad maxd
          (if depth = 0 then n_pad else d_pad) _ _ hFS (pairs pin) 0 cache hc
        show RelOut n_pad d_pad maxd _
          (specCost d_pad (k + 1) (if depth = 0 then n_pad else d_pad) pin)
        simp only [specCost]
        cases hs : specPairs (if depth = 0 then n_pad else d_pad) false
            (specCost d_pad k d_pad) (pairs pin) 0 with
        | none =>
          rw [hs] at hrel
          have hgo := relOut_none.mp hrel
          rw [relOut_none, hbody, hgo]
        | some len =>
          rw [hs] at hrel
          obtain ⟨c', hgo, hc'⟩ := relOut_some.mp hrel
          refine relOut_some.mpr ⟨insertC c' depth pin len, ?_, ?_⟩
          · rw [hbody, hgo]
          · refine cacheValid_insert hc' h1 ?_
            rw [hk]
            simp only [specCost]
            exact hs

/-!
### Totality and lower bounds of the reference cost on well-formed input
-/

theorem A_mem_numeric : 'A' ∈ Keypad.numeric.syms := by decide

theorem A_mem_directional : 'A' ∈ Keypad.directional.syms := by decide

/-- Packaged ground facts: on either keypad, a pair of present symbols has
a defined, non-empty path list of non-empty paths over the directional
alphabet. -/
theorem pad_ground {pad : Keypad}
    (hpad : pad = Keypad.numeric ∨ pad = Keypad.directional)
    {a b : Char} (ha : a ∈ pad.syms) (hb : b ∈ pad.syms) :
    ∃ paths, pad.get_paths a b = some paths ∧ paths ≠ [] ∧
      ∀ p ∈ paths, p ≠ [] ∧ GoodPin Keypad.directional p := by
  have key : (pad.get_paths a b).isSome = true ∧
      (pad.get_paths a b).getD [] ≠ [] ∧
      ∀ p ∈ (pad.get_paths a b).getD [], p ≠ [] ∧ ∀ c ∈ p, c ∈ Keypad.directional.syms := by
    rcases hpad with rfl | rfl
    · obtain ⟨h1, h2, h3⟩ := paths_ground_numeric a ha b hb
      exact ⟨h1, h2, h3⟩
    · obtain ⟨h1, h2, h3⟩ := paths_ground_directional a ha b hb
      exact ⟨h1, h2, h3⟩
  obtain ⟨h1, h2, h3⟩ := key
  cases hp : pad.get_paths a b with
  | none => rw [hp] at h1; simp at h1
  | some paths =>
    rw [hp] at h2 h3
    exact ⟨paths, rfl, h2, fun p hp' => ⟨(h3 p hp').1, (h3 p hp').2⟩⟩

theorem goodPin_pairs {pad : Keypad} {pin : List Char}
    (hA : 'A' ∈ pad.syms) (hg : GoodPin pad pin) :
    ∀ ab ∈ pairs pin, ab.1 ∈ pad.syms ∧ ab.2 ∈ pad.syms := by
  intro ab hab
  obtain ⟨a, b⟩ := ab
  obtain ⟨ha, hb⟩ := mem_pairs hab
  refine ⟨?_, hg b hb⟩
  rcases ha with rfl | ha'
  · exact hA
  · exact hg a ha'

/-- Existence with a uniform lower bound for the running minimum. -/
theorem specPaths_exists_lb {S : List Char → Option Nat} {b : Nat} :
    ∀ (ps : List (List Char)), (∀ p ∈ ps, ∃ v, S p = some v ∧ b ≤ v) →
    ∀ best : Option Nat, (∀ x, best = some x → b ≤ x) →
      (ps ≠ [] ∨ best.isSome) →
      ∃ m, specPaths S ps best = some m ∧ b ≤ m := by
  intro ps
  induction ps with
  | nil =>
    intro _ best hbd hne
    rcases hne with h | h
    · exact absurd rfl h
    · cases best with
      | none => simp at h
      | some x => exact ⟨x, rfl, hbd x rfl⟩
  | cons p rest ih =>
    intro hS best hbd _
    obtain ⟨v, hv, hbv⟩ := hS p (List.mem_cons_self p rest)
    have hS' : ∀ q ∈ rest, ∃ v, S q = some v ∧ b ≤ v :=
      fun q hq => hS q (List.mem_cons_of_mem p hq)
    have hbd' : ∀ x, (some (minOpt best v) : Option Nat) = some x → b ≤ x := by
      intro x hx
      cases hx
      cases best with
      | none => exact hbv
      | some m => exact le_min (hbd m rfl) hbv
    have := ih hS' (some (minOpt best v)) hbd' (Or.inr rfl)
    simpa [specPaths, hv] using this

/-- Existence with the per-pair lower bound one, hence a total lower bound
of one action per symbol of the sequence. -/
theorem specPairs_exists_lb {pad : Keypad} {atMax : Bool} {S : List Char → Option Nat} :
    ∀ (prs : List (Char × Char)),
      (∀ ab ∈ prs, ∃ m, pairCost pad atMax S ab.1 ab.2 = some m ∧ 1 ≤ m) →
      ∀ acc, ∃ v, specPairs pad atMax S prs acc = some v ∧ acc + prs.length ≤ v := by
  intro prs
  induction prs with
  | nil => intro _ acc; exact ⟨acc, rfl, by simp⟩
  | cons ab rest ih =>
    intro h acc
    obtain ⟨a, b⟩ := ab
    obtain ⟨m, hm, h1m⟩ := h (a, b) (List.mem_cons_self _ rest)
    have h' : ∀ ab ∈ rest, ∃ m, pairCost pad atMax S ab.1 ab.2 = some m ∧ 1 ≤ m :=
      fun ab hab => h ab (List.mem_cons_of_mem _ hab)
    obtain ⟨v, hv, hbd⟩ := ih h' (acc + m)
    refine ⟨v, ?_, ?_⟩
    · simp [specPairs, hm, hv]
    · simp only [List.length_cons]
      omega

/-- `minLen` of a list of non-empty paths is defined and at least one. -/
theorem minLen_exists_lb {paths : List (List Char)} (hne : paths ≠ [])
    (h1 : ∀ p ∈ paths, p ≠ []) :
    ∃ m, minLen paths = some m ∧ 1 ≤ m := by
  have : ∀ p ∈ paths, ∃ v, (fun p : List Char => some p.length) p = some v ∧ 1 ≤ v := by
    intro p hp
    refine ⟨p.length, rfl, ?_⟩
    cases p with
    | nil => exact absurd rfl (h1 [] hp)
    | cons c cs => simp
  have := specPaths_exists_lb paths this none (by simp) (Or.inl hne)
  rw [minLen, minLenAux_eq_specPaths]
  exact this

/-- Totality of the reference cost on either keypad, with the lower bound
of one outermost action per produced symbol. -/
theorem specCost_good :
    ∀ (k : Nat) (pad : Keypad) (pin : List Char),
      (pad = Keypad.numeric ∨ pad = Keypad.directional) → GoodPin pad pin →
      ∃ v, specCost Keypad.directional k pad pin = some v ∧ pin.length ≤ v := by
  intro k
  induction k with
  | zero =>
    intro pad pin hpad hg
    have hA : 'A' ∈ pad.syms := by
      rcases hpad with rfl | rfl
      · exact A_mem_numeric
      · exact A_mem_directional
    have hpairs := goodPin_pairs hA hg
    have hpc : ∀ ab ∈ pairs pin,
        ∃ m, pairCost pad true (fun _ => none) ab.1 ab.2 = some m ∧ 1 ≤ m := by
      intro ab hab
      obtain ⟨ha, hb⟩ := hpairs ab hab
      obtain ⟨paths, hp, hne, hall⟩ := pad_ground hpad ha hb
      obtain ⟨m, hm, h1m⟩ := minLen_exists_lb hne (fun p hp' => (hall p hp').1)
      exact ⟨m, by simp [pairCost, hp, hm], h1m⟩
    obtain ⟨v, hv, hbd⟩ := specPairs_exists_lb (pairs pin) hpc 0
    refine ⟨v, by simpa [specCost] using hv, ?_⟩
    rw [← pairs_length pin]
    omega
  | succ k ih =>
    intro pad pin hpad hg
    have hA : 'A' ∈ pad.syms := by
      rcases hpad with rfl | rfl
      · exact A_mem_numeric
      · exact A_mem_directional
    have hpairs := goodPin_pairs hA hg
    have hpc : ∀ ab ∈ pairs pin,
        ∃ m, pairCost pad false (specCost Keypad.directional k Keypad.directional) ab.1 ab.2
          = some m ∧ 1 ≤ m := by
      intro ab hab
      obtain ⟨ha, hb⟩ := hpairs ab hab
      obtain ⟨paths, hp, hne, hall⟩ := pad_ground hpad ha hb
      have hS : ∀ p ∈ paths,
          ∃ v, specCost Keypad.directional k Keypad.directional p = some v ∧ 1 ≤ v := by
        intro p hp'
        obtain ⟨hpne, hpg⟩ := hall p hp'
        obtain ⟨v, hv, hbd⟩ := ih Keypad.directional p (Or.inr rfl) hpg
        refine ⟨v, hv, ?_⟩
        cases p with
        | nil => exact absurd rfl hpne
        | cons c cs => simp at hbd ⊢; omega
      obtain ⟨m, hm, h1m⟩ := specPaths_exists_lb paths hS none (by simp) (Or.inl hne)
      exact ⟨m, by simp [pairCost, hp, hm], h1m⟩
    obtain ⟨v, hv, hbd⟩ := specPairs_exists_lb (pairs pin) hpc 0
    refine ⟨v, by simpa [specCost] using hv, ?_⟩
    rw [← pairs_length pin]
    omega

/-!
### Monotonicity of the reference cost in the chain length
-/

/-- Pointwise larger candidate costs give a larger running minimum. -/
theorem specPaths_mono {S S' : List Char → Option Nat} :
    ∀ (ps : List (List Char)),
      (∀ p ∈ ps, ∀ v', S' p = some v' → ∃ v, S p = some v ∧ v ≤ v') →
      ∀ (best best' : Option Nat),
        (best = none ∧ best' = none ∨ ∃ x y, best = some x ∧ best' = some y ∧ x ≤ y) →
        ∀ m', specPaths S' ps best' = some m' →
          ∃ m, specPaths S ps best = some m ∧ m ≤ m' := by
  intro ps
  induction ps with
  | nil =>
    intro _ best best' hbb m' hm'
    rcases hbb with ⟨rfl, rfl⟩ | ⟨x, y, rfl, rfl, hxy⟩
    · simp [specPaths] at hm'
    · simp [specPaths] at hm'
      exact ⟨x, rfl, hm' ▸ hxy⟩
  | cons p rest ih =>
    intro hSS best best' hbb m' hm'
    simp only [specPaths] at hm'
    cases hS' : S' p with
    | none => rw [hS'] at hm'; cases hm'
    | some v' =>
      rw [hS'] at hm'
      obtain ⟨v, hv, hvv⟩ := hSS p (List.mem_cons_self p rest) v' hS'
      have hSS' : ∀ q ∈ rest, ∀ w', S' q = some w' → ∃ w, S q = some w ∧ w ≤ w' :=
        fun q hq => hSS q (List.mem_cons_of_mem p hq)
      have hbb' : (some (minOpt best v) : Option Nat) = none ∧
            (some (minOpt best' v') : Option Nat) = none ∨
          ∃ x y, (some (minOpt best v) : Option Nat) = some x ∧
            (some (minOpt best' v') : Option Nat) = some y ∧ x ≤ y := by
        refine Or.inr ⟨minOpt best v, minOpt best' v', rfl, rfl, ?_⟩
        rcases hbb with ⟨rfl, rfl⟩ | ⟨x, y, rfl, rfl, hxy⟩
        · exact hvv
        · exact min_le_min hxy hvv
      obtain ⟨m, hm, hmm⟩ := ih hSS' (some (minOpt best v)) (some (minOpt best' v')) hbb' m' hm'
      exact ⟨m, by simpa [specPaths, hv] using hm, hmm⟩

/-- Pointwise larger pair costs give a larger total. -/
theorem specPairs_mono {pad : Keypad} {atMax atMax' : Bool}
    {S S' : List Char → Option Nat} :
    ∀ (prs : List (Char × Char)),
      (∀ ab ∈ prs, ∀ m', pairCost pad atMax' S' ab.1 ab.2 = some m' →
        ∃ m, pairCost pad atMax S ab.1 ab.2 = some m ∧ m ≤ m') →
      ∀ (acc acc' : Nat), acc ≤ acc' →
        ∀ v', specPairs pad atMax' S' prs acc' = some v' →
          ∃ v, specPairs pad atMax S prs acc = some v ∧ v ≤ v' := by
  intro prs
  induction prs with
  | nil =>
    intro _ acc acc' hacc v' hv'
    simp only [specPairs] at hv'
    cases hv'
    exact ⟨acc, rfl, hacc⟩
  | cons ab rest ih =>
    intro hcc acc acc' hacc v' hv'
    obtain ⟨a, b⟩ := ab
    simp only [specPairs] at hv'
    cases hp' : pairCost pad atMax' S' a b with
    | none => rw [hp'] at hv'; cases hv'
    | some m' =>
      rw [hp'] at hv'
      obtain ⟨m, hm, hmm⟩ := hcc (a, b) (List.mem_cons_self _ rest) m' hp'
      have hcc' := fun ab hab => hcc ab (List.mem_cons_of_mem _ hab)
      obtain ⟨v, hv, hvv⟩ := ih hcc' (acc + m) (acc' + m') (by omega) v' hv'
      exact ⟨v, by simpa [specPairs, hm] using hv, hvv⟩

/-- One more indirection layer never decreases the reference cost. -/
theorem specCost_mono_step :
    ∀ (k : Nat) (pad : Keypad) (pin : List Char),
      (pad = Keypad.numeric ∨ pad = Keypad.directional) → GoodPin pad pin →
      ∀ v', specCost Keypad.directional (k + 1) pad pin = some v' →
        ∃ v, specCost Keypad.directional k pad pin = some v ∧ v ≤ v' := by
  intro k
  induction k with
  | zero =>
    intro pad pin hpad hg v' hv'
    have hA : 'A' ∈ pad.syms := by
      rcases hpad with rfl | rfl
      · exact A_mem_numeric
      · exact A_mem_directional
    have hpairs := goodPin_pairs hA hg
    simp only [specCost] at hv' ⊢
    refine specPairs_mono (pairs pin) ?_ 0 0 (le_refl 0) v' hv'
    intro ab hab m' hm'
    obtain ⟨ha, hb⟩ := hpairs ab hab
    obtain ⟨paths, hp, hne, hall⟩ := pad_ground hpad ha hb
    simp only [pairCost, hp] at hm' ⊢
    simp only [if_pos, if_neg, Bool.false_eq_true] at hm' ⊢
    rw [minLen, minLenAux_eq_specPaths]
    refine specPaths_mono paths ?_ none none (Or.inl ⟨rfl, rfl⟩) m' hm'
    intro p hp' w' hw'
    obtain ⟨hpne, hpg⟩ := hall p hp'
    obtain ⟨w, hw, hbd⟩ := specCost_good 0 Keypad.directional p (Or.inr rfl) hpg
    simp only [specCost] at hw
    rw [hw] at hw'
    cases hw'
    exact ⟨p.length, rfl, hbd⟩
  | succ k ih =>
    intro pad pin hpad hg v' hv'
    have hA : 'A' ∈ pad.syms := by
      rcases hpad with rfl | rfl
      · exact A_mem_numeric
      · exact A_mem_directional
    have hpairs := goodPin_pairs hA hg
    simp only [specCost] at hv' ⊢
    refine specPairs_mono (pairs pin) ?_ 0 0 (le_refl 0) v' hv'
    intro ab hab m' hm'
    obtain ⟨ha, hb⟩ := hpairs ab hab
    obtain ⟨paths, hp, hne, hall⟩ := pad_ground hpad ha hb
    simp only [pairCost, hp] at hm' ⊢
    simp only [if_neg, Bool.false_eq_true] at hm' ⊢
    refine specPaths_mono paths ?_ none none (Or.inl ⟨rfl, rfl⟩) m' hm'
    intro p hp' w' hw'
    obtain ⟨hpne, hpg⟩ := hall p hp'
    exact ih Keypad.directional p (Or.inr rfl) hpg w' hw'

/-- Full monotonicity: a longer chain never has a smaller reference cost. -/
theorem specCost_mono :
    ∀ (k k' : Nat), k ≤ k' →
      ∀ (pad : Keypad) (pin : List Char),
        (pad = Keypad.numeric ∨ pad = Keypad.directional) → GoodPin pad pin →
        ∀ v v', specCost Keypad.directional k pad pin = some v →
          specCost Keypad.directional k' pad pin = some v' → v ≤ v' := by
  intro k k' hkk
  induction k' , hkk using Nat.le_induction with
  | base =>
    intro pad pin _ _ v v' hv hv'
    rw [hv] at hv'
    cases hv'
    exact le_refl v
  | succ n hn ih =>
    intro pad pin hpad hg v v' hv hv'
    obtain ⟨w, hw, hww⟩ := specCost_mono_step n pad pin hpad hg v' hv'
    exact le_trans (ih pad pin hpad hg v w hv hw) hww

/-!
### Termination of the memoized evaluator on well-formed input
-/

theorem goPaths_isSome {F : List Char → Cache → Option (Nat × Cache)} :
    ∀ (ps : List (List Char)) (best : Option Nat) (cache : Cache),
      (∀ p ∈ ps, ∀ c, (F p c).isSome = true) →
      (ps ≠ [] ∨ best.isSome = true) →
      (goPaths F ps best cache).isSome = true := by
  intro ps
  induction ps with
  | nil =>
    intro best cache _ hne
    rcases hne with h | h
    · exact absurd rfl h
    · cases best with
      | none => simp at h
      | some m => rfl
  | cons p rest ih =>
    intro best cache hF _
    have h1 := hF p (List.mem_cons_self p rest) cache
    cases hFp : F p cache with
    | none => rw [hFp] at h1; simp at h1
    | some r =>
      obtain ⟨v, c'⟩ := r
      have hF' : ∀ q ∈ rest, ∀ c, (F q c).isSome = true :=
        fun q hq => hF q (List.mem_cons_of_mem p hq)
      have := ih (some (minOpt best v)) c' hF' (Or.inr rfl)
      simpa [goPaths, hFp] using this

theorem goPairs_isSome {pad : Keypad} {atMax : Bool}
    {F : List Char → Cache → Option (Nat × Cache)} :
    ∀ (prs : List (Char × Char)) (acc : Nat) (cache : Cache),
      (∀ ab ∈ prs, ∃ paths, pad.get_paths ab.1 ab.2 = some paths ∧ paths ≠ [] ∧
        (∀ p ∈ paths, p ≠ []) ∧
        (atMax = false → ∀ p ∈ paths, ∀ c, (F p c).isSome = true)) →
      (goPairs pad atMax F prs acc cache).isSome = true := by
  intro prs
  induction prs with
  | nil => intro acc cache _; rfl
  | cons ab rest ih =>
    intro acc cache h
    obtain ⟨a, b⟩ := ab
    obtain ⟨paths, hp, hne, hnn, hF⟩ := h (a, b) (List.mem_cons_self _ rest)
    have h' := fun ab hab => h ab (List.mem_cons_of_mem _ hab)
    cases atMax with
    | true =>
      obtain ⟨m, hm, _⟩ := minLen_exists_lb hne hnn
      have := ih (acc + m) cache h'
      simpa [goPairs, hp, hm] using this
    | false =>
      have hgo := goPaths_isSome paths none cache (hF rfl) (Or.inl hne)
      cases hgp : goPaths F paths none cache with
      | none => rw [hgp] at hgo; simp at hgo
      | some r =>
        obtain ⟨m, c'⟩ := r
        have := ih (acc + m) c' h'
        simpa [goPairs, hp, hgp] using this

theorem find_isSome :
    ∀ (fuel : Nat) (pin : List Char) (depth maxd : Nat) (cache : Cache),
      depth ≤ maxd → maxd + 1 - depth ≤ fuel →
      GoodPin (if depth = 0 then Keypad.numeric else Keypad.directional) pin →
      (find_shortest_len fuel Keypad.numeric Keypad.directional
        pin depth maxd cache).isSome = true := by
  intro fuel
  induction fuel with
  | zero => intro pin depth maxd cache h1 h2 _; omega
  | succ f ih =>
    intro pin depth maxd cache h1 h2 hg
    cases hl : lookupC cache depth pin with
    | some v => simp [find_shortest_len, hl]
    | none =>
      have hpad : (if depth = 0 then Keypad.numeric else Keypad.directional) = Keypad.numeric ∨
          (if depth = 0 then Keypad.numeric else Keypad.directional) = Keypad.directional := by
        by_cases h : depth = 0 <;> simp [h]
      have hA : 'A' ∈ (if depth = 0 then Keypad.numeric else Keypad.directional).syms := by
        rcases hpad with h | h <;> rw [h]
        · exact A_mem_numeric
        · exact A_mem_directional
      have hpairs := goodPin_pairs hA hg
      have hgp : (goPairs (if depth = 0 then Keypad.numeric else Keypad.directional)
          (depth == maxd)
          (fun p c => find_shortest_len f Keypad.numeric Keypad.directional p (depth + 1) maxd c)
          (pairs pin) 0 cache).isSome = true := by
        refine goPairs_isSome (pairs pin) 0 cache ?_
        intro ab hab
        obtain ⟨ha, hb⟩ := hpairs ab hab
        obtain ⟨paths, hp, hne, hall⟩ := pad_ground hpad ha hb
        refine ⟨paths, hp, hne, fun p hp' => (hall p hp').1, ?_⟩
        intro hfalse p hp' c
        have hdm : depth ≠ maxd := by
          intro h
          rw [h] at hfalse
          simp at hfalse
        have hgood : GoodPin (if depth + 1 = 0 then Keypad.numeric else Keypad.directional) p := by
          simp only [Nat.succ_ne_zero, if_neg]
          exact (hall p hp').2
        exact ih p (depth + 1) maxd c (by omega) (by omega) hgood
      cases hgp' : goPairs (if depth = 0 then Keypad.numeric else Keypad.directional)
          (depth == maxd)
          (fun p c => find_shortest_len f Keypad.numeric Keypad.directional p (depth + 1) maxd c)
          (pairs pin) 0 cache with
      | none => rw [hgp'] at hgp; simp at hgp
      | some r =>
        obtain ⟨len, c'⟩ := r
        simp [find_shortest_len, hl, hgp']

/-!
### Rejection of codes with symbols outside the numeric alphabet
-/

theorem get_paths_none_of_lookup_none {pad : Keypad} {a b : Char}
    (hb : pad.keys.lookup b = none) : pad.get_paths a b = none := by
  cases ha : pad.keys.lookup a with
  | none => simp [Keypad.get_paths, ha]
  | some s => simp [Keypad.get_paths, ha, hb]

theorem goPairs_none_of_mem_bad {pad : Keypad} {atMax : Bool}
    {F : List Char → Cache → Option (Nat × Cache)} :
    ∀ (prs : List (Char × Char)),
      (∃ ab ∈ prs, pad.get_paths ab.1 ab.2 = none) →
      ∀ (acc : Nat) (cache : Cache), goPairs pad atMax F prs acc cache = none := by
  intro prs
  induction prs with
  | nil => intro h; exact absurd h.choose_spec.1 (List.not_mem_nil _)
  | cons ab rest ih =>
    intro hbad acc cache
    obtain ⟨a, b⟩ := ab
    cases hp : pad.get_paths a b with
    | none => simp [goPairs, hp]
    | some paths =>
      have hrest : ∃ ab ∈ rest, pad.get_paths ab.1 ab.2 = none := by
        obtain ⟨cd, hcd, hnone⟩ := hbad
        rcases List.mem_cons.mp hcd with rfl | h'
        · rw [hp] at hnone; cases hnone
        · exact ⟨cd, h', hnone⟩
      cases atMax with
      | true =>
        cases hm : minLen paths with
        | none => simp [goPairs, hp, hm]
        | some m => simp [goPairs, hp, hm, ih hrest]
      | false =>
        cases hg : goPaths F paths none cache with
        | none => simp [goPairs, hp, hg]
        | some r => obtain ⟨m, c'⟩ := r; simp [goPairs, hp, hg, ih hrest]

theorem find_depth0_bad :
    ∀ (fuel : Nat) (pin : List Char) (c : Char), c ∈ pin → c ∉ Keypad.numeric.syms →
      ∀ (maxd : Nat) (cache : Cache), CleanCache0 cache →
        find_shortest_len fuel Keypad.numeric Keypad.directional pin 0 maxd cache = none := by
  intro fuel pin c hc hbad maxd cache hclean
  cases fuel with
  | zero => rfl
  | succ f =>
    cases hl : lookupC cache 0 pin with
    | some v => exact absurd (hclean pin v hl c hc) hbad
    | none =>
      obtain ⟨a, hab⟩ := mem_pairs_of_mem hc
      have hlk : Keypad.numeric.keys.lookup c = none :=
        lookup_eq_none_of_not_mem hbad
      have hgp : ∃ ab ∈ pairs pin, Keypad.numeric.get_paths ab.1 ab.2 = none :=
        ⟨(a, c), hab, get_paths_none_of_lookup_none hlk⟩
      have hnone := @goPairs_none_of_mem_bad Keypad.numeric ((0 : Nat) == maxd)
        (fun p cc =>
          find_shortest_len f Keypad.numeric Keypad.directional p (0 + 1) maxd cc)
        (pairs pin) hgp 0 cache
      simp [find_shortest_len, hl, hnone]

theorem find_depth0_good_of_some :
    ∀ (fuel : Nat) (pin : List Char) (maxd : Nat) (cache : Cache) (r : Nat × Cache),
      CleanCache0 cache →
      find_shortest_len fuel Keypad.numeric Keypad.directional pin 0 maxd cache = some r →
      GoodPin Keypad.numeric pin := by
  intro fuel pin maxd cache r hclean hfind
  by_contra hng
  unfold GoodPin at hng
  push_neg at hng
  obtain ⟨c, hc, hbad⟩ := hng
  rw [find_depth0_bad fuel pin c hc hbad maxd cache hclean] at hfind
  cases hfind

theorem goPaths_preserve0 {F : List Char → Cache → Option (Nat × Cache)}
    (hF : ∀ p c r, F p c = some r → ∀ s, lookupC r.2 0 s = lookupC c 0 s) :
    ∀ (ps : List (List Char)) (best : Option Nat) (cache : Cache) (r : Nat × Cache),
      goPaths F ps best cache = some r → ∀ s, lookupC r.2 0 s = lookupC cache 0 s := by
  intro ps
  induction ps with
  | nil =>
    intro best cache r h s
    cases best with
    | none => cases h
    | some m => cases h; rfl
  | cons p rest ih =>
    intro best cache r h s
    simp only [goPaths] at h
    cases hFp : F p cache with
    | none => rw [hFp] at h; cases h
    | some r' =>
      rw [hFp] at h
      calc lookupC r.2 0 s = lookupC r'.2 0 s := ih _ r'.2 r h s
        _ = lookupC cache 0 s := hF p cache r' hFp s

theorem goPairs_preserve0 {pad : Keypad} {atMax : Bool}
    {F : List Char → Cache → Option (Nat × Cache)}
    (hF : ∀ p c r, F p c = some r → ∀ s, lookupC r.2 0 s = lookupC c 0 s) :
    ∀ (prs : List (Char × Char)) (acc : Nat) (cache : Cache) (r : Nat × Cache),
      goPairs pad atMax F prs acc cache = some r →
      ∀ s, lookupC r.2 0 s = lookupC cache 0 s := by
  intro prs
  induction prs with
  | nil => intro acc cache r h s; cases h; rfl
  | cons ab rest ih =>
    intro acc cache r h s
    obtain ⟨a, b⟩ := ab
    cases hp : pad.get_paths a b with
    | none =>
      simp only [goPairs, hp] at h
      cases h
    | some paths =>
      simp only [goPairs, hp] at h
      split at h
      · split at h
        · cases h
        · rename_i m hm
          exact ih (acc + m) cache r h s
      · split at h
        · cases h
        · rename_i r' m cache'' hg
          calc lookupC r.2 0 s = lookupC cache'' 0 s := ih _ cache'' r h s
            _ = lookupC cache 0 s := by
                have := goPaths_preserve0 hF paths none cache (m, cache'') hg s
                exact this

theorem find_preserve0 :
    ∀ (fuel : Nat) (n_pad d_pad : Keypad) (pin : List Char) (depth maxd : Nat)
      (cache : Cache) (r : Nat × Cache), 1 ≤ depth →
      find_shortest_len fuel n_pad d_pad pin depth maxd cache = some r →
      ∀ s, lookupC r.2 0 s = lookupC cache 0 s := by
  intro fuel
  induction fuel with
  | zero => intro n d pin depth maxd cache r _ h; cases h
  | succ f ih =>
    intro n d pin depth maxd cache r hdep h s
    cases hl : lookupC cache depth pin with
    | some v =>
      simp only [find_shortest_len, hl] at h
      cases h
      rfl
    | none =>
      simp only [find_shortest_len, hl] at h
      have hF : ∀ p c r', (fun p c => find_shortest_len f n d p (depth + 1) maxd c) p c = some r' →
          ∀ s, lookupC r'.2 0 s = lookupC c 0 s := by
        intro p c r' hr'
        exact ih n d p (depth + 1) maxd c r' (by omega) hr'
      split at h
      · cases h
      · rename_i len cache' heq
        cases h
        have hpre := goPairs_preserve0 hF (pairs pin) 0 cache (len, cache') heq s
        rw [lookupC_insertC]
        have : ¬(depth = 0 ∧ pin = s) := by
          intro hx
          omega
        rw [if_neg this]
        exact hpre

theorem cleanCache0_nil : CleanCache0 [] := by
  intro s v h
  simp [lookupC] at h

theorem find0_clean_preserve :
    ∀ (fuel : Nat) (pin : List Char) (maxd : Nat) (cache : Cache) (r : Nat × Cache),
      CleanCache0 cache →
      find_shortest_len fuel Keypad.numeric Keypad.directional pin 0 maxd cache = some r →
      CleanCache0 r.2 := by
  intro fuel pin maxd cache r hclean h
  have hgood := find_depth0_good_of_some fuel pin maxd cache r hclean h
  cases fuel with
  | zero => cases h
  | succ f =>
    cases hl : lookupC cache 0 pin with
    | some v =>
      simp only [find_shortest_len, hl] at h
      cases h
      exact hclean
    | none =>
      simp only [find_shortest_len, hl] at h
      split at h
      · cases h
      · rename_i len cache' heq
        cases h
        have hpre := goPairs_preserve0 (fun p c r' hr' s =>
            find_preserve0 f Keypad.numeric Keypad.directional p (0 + 1) maxd c r'
              (by omega) hr' s)
          (pairs pin) 0 cache (len, cache') heq
        intro s v hs
        rw [lookupC_insertC] at hs
        split at hs
        · rename_i hkey
          obtain ⟨_, rfl⟩ := hkey
          exact hgood
        · have : lookupC cache' 0 s = lookupC cache 0 s := hpre s
          rw [this] at hs
          exact hclean s v hs

theorem solveGo_none_of_bad :
    ∀ (codes : List (List Char)) (maxd : Nat) (cache : Cache),
      CleanCache0 cache →
      (∃ pin ∈ codes, ∃ c ∈ pin, c ∉ Keypad.numeric.syms) →
      solveGo Keypad.numeric Keypad.directional maxd codes cache = none := by
  intro codes
  induction codes with
  | nil => intro maxd cache _ h; exact absurd h.choose_spec.1 (List.not_mem_nil _)
  | cons head rest ih =>
    intro maxd cache hclean hbad
    cases hf : find_shortest_len (maxd + 1) Keypad.numeric Keypad.directional
        head 0 maxd cache with
    | none => simp [solveGo, hf]
    | some r =>
      obtain ⟨len, cache'⟩ := r
      have hgood := find_depth0_good_of_some _ head maxd cache _ hclean hf
      have hclean' := find0_clean_preserve _ head maxd cache _ hclean hf
      have hrest : ∃ pin ∈ rest, ∃ c ∈ pin, c ∉ Keypad.numeric.syms := by
        obtain ⟨pin, hpin, c, hc, hbadc⟩ := hbad
        rcases List.mem_cons.mp hpin with rfl | h'
        · exact absurd (hgood c hc) hbadc
        · exact ⟨pin, h', c, hc, hbadc⟩
      have hnone := ih maxd cache' hclean' hrest
      cases hp : parseNat head.dropLast with
      | none => simp [solveGo, hf, hp]
      | some v => simp [solveGo, hf, hp, hnone]

/-- C7: a code containing a symbol absent from the numeric keypad is
surfaced to the caller: `solver` returns the error outcome (the embedding
of the Rust panic on the failed `self.keys[..]` lookup propagating out of
`solver`), with no local recovery. -/
theorem solver_rejects_unknown_symbol :
    ∀ (codes : List (List Char)) (part2 : Bool),
      (∃ pin ∈ codes, ∃ c ∈ pin, c ∉ Keypad.numeric.syms) →
      solver codes part2 = none := by
  intro codes part2 hbad
  have := solveGo_none_of_bad codes (if part2 then 25 else 2) [] cleanCache0_nil hbad
  simpa [solver] using this

/-- C7 witness: a concrete malformed code is rejected. -/
theorem solver_rejects_unknown_symbol_witness :
    solver [['0', 'B', 'A']] false = none :=
  solver_rejects_unknown_symbol [['0', 'B', 'A']] false
    ⟨['0', 'B', 'A'], by simp, 'B', by simp, by decide⟩

/-- C5: on well-formed input the evaluator terminates.  The embedding makes
the Rust call stack explicit as `fuel`; since every recursive call is made
at `depth + 1` and recursion stops at the single terminal depth
`max_depth`, a stack of `max_depth + 1 - depth` frames always suffices:
with any such fuel the evaluator returns a result (never the
out-of-fuel/divergence marker `none`), for every sequence over the
alphabet of the controller selected at `depth` and every cache. -/
theorem find_shortest_len_terminates :
    ∀ (pin : List Char) (depth max_depth : Nat) (cache : Cache) (fuel : Nat),
      depth ≤ max_depth → max_depth + 1 - depth ≤ fuel →
      GoodPin (if depth = 0 then Keypad.numeric else Keypad.directional) pin →
      (find_shortest_len fuel Keypad.numeric Keypad.directional
        pin depth max_depth cache).isSome = true :=
  fun pin depth maxd cache fuel h1 h2 hg => find_isSome fuel pin depth maxd cache h1 h2 hg

/-- C5 witness at a concrete input. -/
theorem find_shortest_len_terminates_witness :
    (find_shortest_len 3 Keypad.numeric Keypad.directional
      ['0', '2', '9', 'A'] 0 2 []).isSome = true :=
  find_shortest_len_terminates ['0', '2', '9', 'A'] 0 2 [] 3
    (by decide) (by decide) (by decide)

/-- C6: for a fixed code over the numeric alphabet, increasing the chain
length (`max_depth`) never decreases the minimal outermost action count
computed by `find_shortest_len` (from a fresh cache, as `solver` starts). -/
theorem find_shortest_len_monotone :
    ∀ (pin : List Char), GoodPin Keypad.numeric pin →
    ∀ (m m' fuel fuel' : Nat), m ≤ m' → m + 1 ≤ fuel → m' + 1 ≤ fuel' →
      ∃ v v' c c',
        find_shortest_len fuel Keypad.numeric Keypad.directional pin 0 m [] = some (v, c) ∧
        find_shortest_len fuel' Keypad.numeric Keypad.directional pin 0 m' [] = some (v', c') ∧
        v ≤ v' := by
  intro pin hg m m' fuel fuel' hmm hf hf'
  obtain ⟨v, hv, _⟩ := specCost_good m Keypad.numeric pin (Or.inl rfl) hg
  obtain ⟨v', hv', _⟩ := specCost_good m' Keypad.numeric pin (Or.inl rfl) hg
  have h1 := find_rel fuel Keypad.numeric Keypad.directional pin 0 m []
    (by omega) (by omega) cacheValid_nil
  have h2 := find_rel fuel' Keypad.numeric Keypad.directional pin 0 m' []
    (by omega) (by omega) cacheValid_nil
  have e : (if (0 : Nat) = 0 then Keypad.numeric else Keypad.directional) = Keypad.numeric := by
    simp
  rw [e, Nat.sub_zero, hv] at h1
  rw [e, Nat.sub_zero, hv'] at h2
  obtain ⟨c, hc, _⟩ := relOut_some.mp h1
  obtain ⟨c', hc', _⟩ := relOut_some.mp h2
  exact ⟨v, v', c, c', hc, hc',
    specCost_mono m m' hmm Keypad.numeric pin (Or.inl rfl) hg v v' hv hv'⟩

/-- C6 witness at a concrete input. -/
theorem find_shortest_len_monotone_witness :
    ∃ v v' c c',
      find_shortest_len 2 Keypad.numeric Keypad.directional ['0', '2', '9', 'A'] 0 1 []
        = some (v, c) ∧
      find_shortest_len 3 Keypad.numeric Keypad.directional ['0', '2', '9', 'A'] 0 2 []
        = some (v', c') ∧
      v ≤ v' :=
  find_shortest_len_monotone ['0', '2', '9', 'A'] (by decide) 1 2 2 3
    (by decide) (by decide) (by decide)

theorem get_paths_AA_numeric : Keypad.numeric.get_paths 'A' 'A' = some [['A']] := by decide

theorem get_paths_AA_directional :
    Keypad.directional.get_paths 'A' 'A' = some [['A']] := by decide

/-- The reference cost of the resting-symbol singleton is one at every
remaining-layer count, on either keypad. -/
theorem specCost_singleA :
    ∀ (k : Nat) (pad : Keypad), (pad = Keypad.numeric ∨ pad = Keypad.directional) →
      specCost Keypad.directional k pad ['A'] = some 1 := by
  intro k
  induction k with
  | zero =>
    intro pad hpad
    rcases hpad with rfl | rfl <;> decide
  | succ k ih =>
    intro pad hpad
    have hAA : pad.get_paths 'A' 'A' = some [['A']] := by
      rcases hpad with rfl | rfl
      · exact get_paths_AA_numeric
      · exact get_paths_AA_directional
    have hrec := ih Keypad.directional (Or.inr rfl)
    show specPairs pad false (specCost Keypad.directional k Keypad.directional)
      (pairs ['A']) 0 = some 1
    show specPairs pad false (specCost Keypad.directional k Keypad.directional)
      [('A', 'A')] 0 = some 1
    simp [specPairs, pairCost, hAA, specPaths, hrec, minOpt]

/-- C9: producing the single resting symbol `A` costs exactly one action
(the activate press) at every depth `d ≤ max_depth`, independent of depth:
evaluated from a fresh cache with sufficient stack. -/
theorem single_A_cost_one :
    ∀ (depth max_depth fuel : Nat), depth ≤ max_depth → max_depth + 1 - depth ≤ fuel →
      ∃ cache', find_shortest_len fuel Keypad.numeric Keypad.directional
        ['A'] depth max_depth [] = some (1, cache') := by
  intro depth maxd fuel h1 h2
  have h := find_rel fuel Keypad.numeric Keypad.directional ['A'] depth maxd []
    h1 h2 cacheValid_nil
  have hs : specCost Keypad.directional (maxd - depth)
      (if depth = 0 then Keypad.numeric else Keypad.directional) ['A'] = some 1 := by
    refine specCost_singleA (maxd - depth) _ ?_
    by_cases hd : depth = 0 <;> simp [hd]
  rw [hs] at h
  obtain ⟨c', hc', _⟩ := relOut_some.mp h
  exact ⟨c', hc'⟩

/-- C9 witness at a concrete depth. -/
theorem single_A_cost_one_witness :
    ∃ cache', find_shortest_len 3 Keypad.numeric Keypad.directional
      ['A'] 1 3 [] = some (1, cache') :=
  single_A_cost_one 1 3 3 (by decide) (by decide)

/-- C8 counterexample: cache keys are not two-symbol transitions.  Running
the evaluator on the code `029A` stores its result under the key
`(0, "029A")`, whose sequence component has length four, not two. -/
theorem cache_key_not_pair :
    ((find_shortest_len 3 Keypad.numeric Keypad.directional
        ['0', '2', '9', 'A'] 0 2 []).map
      (fun r => lookupC r.2 0 ['0', '2', '9', 'A'])) = some (some 68) ∧
    ['0', '2', '9', 'A'].length ≠ 2 :=
  ⟨rfl, by decide⟩

/-- C8 amended: the cache is keyed by `(depth, full move sequence)` — the
whole pin or candidate path being evaluated, not a two-symbol transition.
A present key is reused without recomputation (the cache is returned
unchanged), and a computed result is stored under `(depth, sequence)`. -/
theorem cache_key_full_sequence :
    ∀ (fuel : Nat) (n_pad d_pad : Keypad) (pin : List Char)
      (depth max_depth : Nat) (cache : Cache),
      (∀ v, lookupC cache depth pin = some v →
        find_shortest_len (fuel + 1) n_pad d_pad pin depth max_depth cache
          = some (v, cache)) ∧
      (∀ len cache',
        find_shortest_len fuel n_pad d_pad pin depth max_depth cache = some (len, cache') →
        lookupC cache' depth pin = some len) := by
  intro fuel n_pad d_pad pin depth maxd cache
  constructor
  · intro v hv
    simp [find_shortest_len, hv]
  · intro len cache' h
    cases fuel with
    | zero => cases h
    | succ f =>
      cases hl : lookupC cache depth pin with
      | some v =>
        simp only [find_shortest_len, hl] at h
        cases h
        exact hl
      | none =>
        simp only [find_shortest_len, hl] at h
        split at h
        · cases h
        · rename_i r len' cache'' heq
          cases h
          rw [lookupC_insertC]
          simp

/-- C8 witness: a pre-seeded full-sequence key is reused unchanged, and a
successful evaluation leaves its result under its full-sequence key. -/
theorem cache_key_full_sequence_witness :
    find_shortest_len 1 Keypad.numeric Keypad.directional ['A'] 5 7
        [((5, ['A']), 42)] = some (42, [((5, ['A']), 42)]) ∧
    lookupC [((5, ['A']), 42)] 5 ['A'] = some 42 :=
  ⟨(cache_key_full_sequence 0 Keypad.numeric Keypad.directional ['A'] 5 7
      [((5, ['A']), 42)]).1 42 rfl,
   (cache_key_full_sequence 1 Keypad.numeric Keypad.directional ['A'] 5 7
      [((5, ['A']), 42)]).2 42 [((5, ['A']), 42)]
     ((cache_key_full_sequence 0 Keypad.numeric Keypad.directional ['A'] 5 7
        [((5, ['A']), 42)]).1 42 rfl)⟩

/-- C2 witness at a concrete pair and path. -/
theorem get_paths_minimal_length_witness :
    (['^', '^', '^', '<', 'A'] : List Char).length =
      mdist (keyPos Keypad.numeric '0') (keyPos Keypad.numeric '7') + 1 :=
  get_paths_minimal_length.1 '0' (by decide) '7' (by decide)
    ['^', '^', '^', '<', 'A'] (by decide)

/-- C3 witness at a concrete pair and path. -/
theorem get_paths_avoids_forbidden_witness :
    Keypad.numeric.forbidden ∉
      visited (keyPos Keypad.numeric '0') ['^', '^', '^', '<', 'A'] :=
  get_paths_avoids_forbidden.1 '0' (by decide) '7' (by decide)
    ['^', '^', '^', '<', 'A'] (by decide)

/-- C10 witness at a concrete pair. -/
theorem get_paths_nonempty_witness :
    (Keypad.directional.get_paths '<' 'A').isSome = true ∧
    (Keypad.directional.get_paths '<' 'A').getD [] ≠ [] ∧
    (minLen ((Keypad.directional.get_paths '<' 'A').getD [])).isSome = true :=
  get_paths_nonempty.2 '<' (by decide) 'A' (by decide)
set_option maxRecDepth 1000000 in
/-- C1: on the five-code reference input with `part2 = false`
(`max_depth = 2`), `solver` returns 126384; the per-code minimal outermost
action counts are 68, 60, 68, 64, 64, the embedded numeric values are 29,
980, 179, 456, 379, and the sum of the products is the returned total. -/
theorem solver_part1_reference_sum :
    solver testCodes false = some 126384 ∧
    testCodes.map (fun c =>
        (find_shortest_len 3 Keypad.numeric Keypad.directional c 0 2 []).map Prod.fst)
      = [some 68, some 60, some 68, some 64, some 64] ∧
    testCodes.map (fun c => parseNat c.dropLast)
      = [some 29, some 980, some 179, some 456, some 379] ∧
    68 * 29 + 60 * 980 + 68 * 179 + 64 * 456 + 64 * 379 = 126384 :=
  ⟨rfl, rfl, rfl, rfl⟩

set_option maxRecDepth 1000000 in
set_option maxHeartbeats 40000000 in
/-- C4: on the same five-code reference input with `part2 = true`
(`max_depth = 25`), `solver` returns 154115708116294, and each code's
minimal outermost action count at `max_depth = 25` strictly exceeds its
count at `max_depth = 2`. -/
theorem solver_part2_reference_sum :
    solver testCodes true = some 154115708116294 ∧
    testCodes.map (fun c =>
        (find_shortest_len 26 Keypad.numeric Keypad.directional c 0 25 []).map Prod.fst)
      = [some 82050061710, some 72242026390, some 81251039228,
         some 80786362258, some 77985628636] ∧
    testCodes.map (fun c =>
        (find_shortest_len 3 Keypad.numeric Keypad.directional c 0 2 []).map Prod.fst)
      = [some 68, some 60, some 68, some 64, some 64] ∧
    (List.zip [82050061710, 72242026390, 81251039228, 80786362258, 77985628636]
        ([68, 60, 68, 64, 64] : List Nat)).all (fun x => x.2 < x.1) = true :=
  ⟨rfl, rfl, rfl, rfl⟩
